import Mathlib

/-!
Shallow embedding of the Swagger/ARM spec generator (`src/main.ts`) in Lean 4.

JavaScript objects (`Record<string, T>`) are modelled as insertion-ordered
association lists with unique keys; a JS `throw` is modelled by `Except String`;
JS `Set` values are modelled together with an allocation tag (`ref`) because the
source compares mutability sets with `==`, which is reference equality on JS
objects.  Serialized JSON output is modelled by the `Value` type below.
-/

namespace ArmSpec

deriving instance DecidableEq for Except

/-- A JavaScript object used as a dictionary: insertion-ordered key/value list. -/
abbrev Rcd (T : Type) : Type := List (String × T)

/-- Lookup of a key in a dictionary (the JS `obj[key]` read). -/
def rlookup {T : Type} : Rcd T → String → Option T
  | [], _ => none
  | (k, v) :: rest, key => if k = key then some v else rlookup rest key

/-- The JS `hasOwnProperty` test. -/
def hasKey {T : Type} (r : Rcd T) (k : String) : Bool :=
  (rlookup r k).isSome

/-- The keys of a dictionary, in insertion order. -/
def keys {T : Type} (r : Rcd T) : List String :=
  r.map Prod.fst

/-- The JS assignment `obj[k] = v`: overwrite in place if the key exists
(keeping its position), otherwise append. -/
def assign {T : Type} : Rcd T → String → T → Rcd T
  | [], k, v => [(k, v)]
  | (k0, v0) :: rest, k, v =>
    if k0 = k then (k, v) :: rest else (k0, v0) :: assign rest k v

/-- Inner loop of `concatObjects` from `src/main.ts`: fold the entries of one
object into the accumulated result, failing on any duplicate key. -/
def insertDisjoint {T : Type} (result : Rcd T) : Rcd T → Except String (Rcd T)
  | [] => .ok result
  | (k, v) :: rest =>
    if hasKey result k then
      .error ("Multiple objects provide key " ++ k ++ ".")
    else
      insertDisjoint (result ++ [(k, v)]) rest

/-- Accumulating loop of `concatObjects`. -/
def concatObjectsAux {T : Type} (result : Rcd T) : List (Rcd T) → Except String (Rcd T)
  | [] => .ok result
  | obj :: objs =>
    match insertDisjoint result obj with
    | .error e => .error e
    | .ok r => concatObjectsAux r objs

/-- `concatObjects` from `src/main.ts`: disjoint union of dictionaries,
throwing when a key appears in more than one input. -/
def concatObjects {T : Type} (objs : List (Rcd T)) : Except String (Rcd T) :=
  concatObjectsAux [] objs

/-- Inner loop of `concatRecords` from `src/main.ts`: fold the entries of one
record into the accumulated result.  A key already present is allowed only when
its value is deep-equal (`JSON.stringify` comparison in the source, structural
equality here) to the present one, in which case the original copy is kept. -/
def insertIdem {T : Type} [DecidableEq T] (result : Rcd T) : Rcd T → Except String (Rcd T)
  | [] => .ok result
  | (k, v) :: rest =>
    match rlookup result k with
    | some orig =>
      if orig = v then insertIdem result rest
      else .error ("Conflicting definitions found of key " ++ k ++ ".")
    | none => insertIdem (result ++ [(k, v)]) rest

/-- Accumulating loop of `concatRecords`. -/
def concatRecordsAux {T : Type} [DecidableEq T] (result : Rcd T) :
    List (Rcd T) → Except String (Rcd T)
  | [] => .ok result
  | obj :: objs =>
    match insertIdem result obj with
    | .error e => .error e
    | .ok r => concatRecordsAux r objs

/-- `concatRecords` from `src/main.ts`: idempotent union of dictionaries,
throwing when a key appears twice with conflicting (not deep-equal) values. -/
def concatRecords {T : Type} [DecidableEq T] (records : List (Rcd T)) : Except String (Rcd T) :=
  concatRecordsAux [] records

/-- `capitalize` from `src/main.ts`: uppercase the first character
(`charAt(0).toUpperCase() + slice(1)`), written over the character list so
that it evaluates by kernel reduction. -/
def capitalize (s : String) : String :=
  match s.data with
  | [] => ""
  | c :: cs => String.mk (c.toUpper :: cs)

/-- The `Mutability` enum of `src/main.ts`. -/
inductive Mutability : Type where
  | create
  | read
  | write
  deriving DecidableEq

/-- The string tag of a `Mutability` member (its enum value in the source). -/
def mutTag : Mutability → String
  | .create => "create"
  | .read => "read"
  | .write => "write"

/-- A JS `Set<Mutability>`.  `elems` lists the members in insertion order;
`ref` models the identity of the allocated set object: the four module-level
constants below own the tags 0–3, and any other `new Set(...)` allocation
carries a fresh tag (≥ 4), so equality of `MutSet` values models the reference
equality that the source's `==` comparisons perform on sets. -/
structure MutSet : Type where
  ref : Nat
  elems : List Mutability
  deriving DecidableEq

/-- The `ImmutableSecret` constant of `src/main.ts`. -/
def ImmutableSecret : MutSet := ⟨0, [.create]⟩

/-- The `MutableSecret` constant of `src/main.ts`. -/
def MutableSecret : MutSet := ⟨1, [.create, .write]⟩

/-- The `ReadOnly` constant of `src/main.ts`. -/
def ReadOnly : MutSet := ⟨2, [.read]⟩

/-- The `Immutable` constant of `src/main.ts`. -/
def Immutable : MutSet := ⟨3, [.create, .read]⟩

/-- Lexicographic comparison of strings by code point, the order used by the
JS `Array.prototype.sort()` default comparator on strings. -/
def strLe (a b : String) : Bool :=
  go a.data b.data
where
  go : List Char → List Char → Bool
    | [], _ => true
    | _ :: _, [] => false
    | c :: cs, d :: ds =>
      if c.val < d.val then true
      else if d.val < c.val then false
      else go cs ds

/-- Insert a string into a list sorted by `strLe`. -/
def insortStr (x : String) : List String → List String
  | [] => [x]
  | y :: ys => if strLe x y then x :: y :: ys else y :: insortStr x ys

/-- Sort a list of strings by `strLe` (the JS `.sort()` on an array of
strings: any comparison sort yields this order). -/
def sortStrs : List String → List String
  | [] => []
  | x :: xs => insortStr x (sortStrs xs)

mutual
/-- JSON-like values, modelling the `Record<string, unknown>` trees the
serializers emit.  Arrays and objects use their own list types so that
decidable equality can be derived. -/
inductive Value : Type where
  | str (s : String)
  | bool (b : Bool)
  | arr (elems : VList)
  | obj (fields : VFields)
  deriving DecidableEq
inductive VList : Type where
  | nil
  | cons (v : Value) (rest : VList)
  deriving DecidableEq
inductive VFields : Type where
  | nil
  | cons (k : String) (v : Value) (rest : VFields)
  deriving DecidableEq
end

/-- Build a `VList` from a Lean list. -/
def VList.ofList : List Value → VList
  | [] => .nil
  | v :: rest => .cons v (VList.ofList rest)

/-- Build a `VFields` from a Lean association list. -/
def VFields.ofList : List (String × Value) → VFields
  | [] => .nil
  | (k, v) :: rest => .cons k v (VFields.ofList rest)

/-- Lookup of a key among object fields. -/
def vlookup : VFields → String → Option Value
  | .nil, _ => none
  | .cons k v rest, key => if k = key then some v else vlookup rest key

/-- `serializeMutability` from `src/main.ts`.  The source compares `mt` with
the module constants using `==`, i.e. reference equality, modelled here by
equality of `MutSet` values (see `MutSet.ref`). -/
def serializeMutability : Option MutSet → Rcd Value
  | none => []
  | some mt =>
    let t1 : Rcd Value :=
      [("x-ms-mutability", .arr (VList.ofList ((sortStrs (mt.elems.map mutTag)).map .str)))]
    let t2 : Rcd Value :=
      if mt = ReadOnly then t1 ++ [("readOnly", .bool true)] else t1
    if mt = ImmutableSecret ∨ mt = MutableSecret then
      t2 ++ [("x-ms-secret", .bool true)]
    else t2

/-- A `Version` 3-tuple `[year, month, day]` from `src/main.ts`. -/
structure Version : Type where
  year : Int
  month : Int
  day : Int
  deriving DecidableEq

/-- The `Versioned` interface of `src/main.ts`. -/
structure Versioned : Type where
  previewVersion : Option Version
  gaVersion : Option Version
  deprecatedOn : Option Version
  deriving DecidableEq

/-- The `VersionKind` enum of `src/main.ts`. -/
inductive VersionKind : Type where
  | preview
  | ga
  deriving DecidableEq

/-- A `TargetVersion` pair from `src/main.ts`. -/
abbrev TargetVersion : Type := Version × VersionKind

/-- `removalDate` from `src/main.ts`, including its exact month arithmetic
(`month > 5 ? [year+1, month-5, day] : [year, month+6, day]`). -/
def removalDate (it : Versioned) : Option Version :=
  match it.deprecatedOn with
  | none => none
  | some d =>
    if it.gaVersion.isSome then some ⟨d.year + 3, d.month, d.day⟩
    else if it.previewVersion.isSome then
      if d.month > 5 then some ⟨d.year + 1, d.month - 5, d.day⟩
      else some ⟨d.year, d.month + 6, d.day⟩
    else none

/-- `atMost` from `src/main.ts`: lexicographic date comparison. -/
def atMost (a b : Version) : Bool :=
  decide (a.year < b.year) ||
    (decide (a.year = b.year) && decide (a.month < b.month)) ||
    (decide (a.year = b.year) && decide (a.month = b.month) && decide (a.day ≤ b.day))

/-- Channel part of `inVersion` from `src/main.ts` (the code after the
removal-date cutoff check). -/
def channelVisible (it : Versioned) (version : Version) : VersionKind → Bool
  | .preview =>
    (match it.previewVersion with
     | some p => atMost p version
     | none => false) ||
    (match it.gaVersion with
     | some g => atMost g version
     | none => false)
  | .ga =>
    match it.gaVersion with
    | some g => atMost g version
    | none => false

/-- `inVersion` from `src/main.ts`. -/
def inVersion (it : Versioned) (targetVersion : TargetVersion) : Bool :=
  match removalDate it with
  | some rd => if atMost rd targetVersion.1 then false else channelVisible it targetVersion.1 targetVersion.2
  | none => channelVisible it targetVersion.1 targetVersion.2

mutual
/-- The `FieldType` discriminated union of `src/main.ts`.  The `object`
variant carries its property record as the `Props` list below so that
decidable equality can be derived for the mutual knot. -/
inductive FieldType : Type where
  | bool
  | string
  | int32
  | int64
  | float
  | array (elementKind : FieldType)
  | enum (typeName : String) (values : List String)
  | object (definitionName : String) (description : String) (properties : Props)
  | xref (target : String)
  deriving DecidableEq
/-- An insertion-ordered property record `Record<string, Property>` appearing
inside an object field type. -/
inductive Props : Type where
  | nil
  | cons (name : String) (property : Property) (rest : Props)
  deriving DecidableEq
/-- The `Property` interface of `src/main.ts` (description, type, optional
mutability and required flag, plus the `Versioned` fields). -/
inductive Property : Type where
  | mk (description : String) (type : FieldType) (mutability : Option MutSet)
       (required : Option Bool) (previewVersion : Option Version)
       (gaVersion : Option Version) (deprecatedOn : Option Version)
  deriving DecidableEq
end

/-- The `description` field of a property. -/
def Property.description : Property → String
  | .mk d _ _ _ _ _ _ => d

/-- The `type` field of a property. -/
def Property.type : Property → FieldType
  | .mk _ t _ _ _ _ _ => t

/-- The `mutability` field of a property. -/
def Property.mutability : Property → Option MutSet
  | .mk _ _ m _ _ _ _ => m

/-- The `required` field of a property. -/
def Property.required : Property → Option Bool
  | .mk _ _ _ r _ _ _ => r

/-- The `previewVersion` field of a property. -/
def Property.previewVersion : Property → Option Version
  | .mk _ _ _ _ p _ _ => p

/-- The `gaVersion` field of a property. -/
def Property.gaVersion : Property → Option Version
  | .mk _ _ _ _ _ g _ => g

/-- The `deprecatedOn` field of a property. -/
def Property.deprecatedOn : Property → Option Version
  | .mk _ _ _ _ _ _ d => d

/-- The `Versioned` part of a property. -/
def Property.toVersioned (p : Property) : Versioned :=
  ⟨p.previewVersion, p.gaVersion, p.deprecatedOn⟩

/-- Does a field type have kind `object`? -/
def FieldType.isObjectKind : FieldType → Bool
  | .object _ _ _ => true
  | _ => false

/-- The `Definition` interface of `src/main.ts`: a description and a property
record. -/
structure Definition : Type where
  description : String
  properties : List (String × Property)
  deriving DecidableEq

/-- `serializeFieldType` from `src/main.ts`: the inline wire shape of a field
type; throws on an object field type (which must be lowered by the extractor
first).  The throw is modelled by `Except.error`. -/
def serializeFieldType : FieldType → Except String (Rcd Value)
  | .string => .ok [("type", .str "string")]
  | .bool => .ok [("type", .str "boolean")]
  | .int32 => .ok [("type", .str "integer"), ("format", .str "int32")]
  | .int64 => .ok [("type", .str "integer"), ("format", .str "int64")]
  | .float => .ok [("type", .str "number"), ("format", .str "double")]
  | .enum typeName values =>
    .ok [("type", .str "string"),
         ("enum", .arr (VList.ofList (values.map .str))),
         ("x-ms-enum", .obj (VFields.ofList
            [("modelAsString", .bool true), ("name", .str typeName)]))]
  | .array elementKind =>
    match serializeFieldType elementKind with
    | .error e => .error e
    | .ok items => .ok [("type", .str "array"), ("items", .obj (VFields.ofList items))]
  | .xref target => .ok [("$ref", .str ("#/definitions/" ++ target))]
  | .object _ _ _ => .error "Cannot serialize field type object."

/-- The property loop inside `definitionsFromFieldType` from `src/main.ts`:
walk the object's properties in order, dropping the ones not visible at the
target version, replacing object-typed properties by xrefs (keeping only
description and ga/preview dates) while recursively extracting and merging
their definitions, and copying every other property unchanged.  The source's
recursive call `definitionsFromFieldType(property.type, targetVersion)` on an
object-typed property is inlined here (loop over the nested properties, then
insert the nested definition under its name) so that the recursion is
structural and evaluates by kernel reduction. -/
def defsLoop (targetVersion : TargetVersion) :
    Props → List (String × Property) → Rcd Definition →
    Except String (List (String × Property) × Rcd Definition)
  | .nil, accProps, accDefs => .ok (accProps, accDefs)
  | .cons key (.mk pd (.object dn dd dp) pm pr ppv pga pdep) rest, accProps, accDefs =>
    if inVersion (Property.mk pd (.object dn dd dp) pm pr ppv pga pdep).toVersioned targetVersion then
      let newProp : Property := .mk pd (.xref dn) none none ppv pga none
      match defsLoop targetVersion dp [] [] with
      | .error e => .error e
      | .ok (subEmitted, subDefs) =>
        match concatRecords [accDefs, assign subDefs dn ⟨dd, subEmitted⟩] with
        | .error e => .error e
        | .ok merged => defsLoop targetVersion rest (accProps ++ [(key, newProp)]) merged
    else
      defsLoop targetVersion rest accProps accDefs
  | .cons key property rest, accProps, accDefs =>
    if inVersion property.toVersioned targetVersion then
      defsLoop targetVersion rest (accProps ++ [(key, property)]) accDefs
    else
      defsLoop targetVersion rest accProps accDefs

/-- `definitionsFromFieldType` from `src/main.ts`: recursively lower an object
field type into a record of named definitions; non-object inputs yield the
empty record; the top-level definition is inserted under its own name by
JS assignment.  Errors raised by the idempotent merge propagate. -/
def definitionsFromFieldType (ft : FieldType) (targetVersion : TargetVersion) :
    Except String (Rcd Definition) :=
  match ft with
  | .object definitionName description properties =>
    match defsLoop targetVersion properties [] [] with
    | .error e => .error e
    | .ok (emitted, defs) => .ok (assign defs definitionName ⟨description, emitted⟩)
  | _ => .ok []

/-- One step of the property loop inside `serializeDefinition`: collect the
key into the required list when the property's required flag is truthy, and
serialize the property as the disjoint merge of its description fragment, its
field-type fragment and its mutability fragment. -/
def serializePropsAux (acc : Rcd Value) (reqAcc : List String) :
    List (String × Property) → Except String (Rcd Value × List String)
  | [] => .ok (acc, reqAcc)
  | (key, property) :: rest =>
    let reqAcc2 := if property.required = some true then reqAcc ++ [key] else reqAcc
    match serializeFieldType property.type with
    | .error e => .error e
    | .ok ftv =>
      match concatObjects [[("description", .str property.description)], ftv,
                           serializeMutability property.mutability] with
      | .error e => .error e
      | .ok merged => serializePropsAux (acc ++ [(key, .obj (VFields.ofList merged))]) reqAcc2 rest

/-- `serializeDefinition` from `src/main.ts`.  The result object is created as
`{description, type, properties: {}, required: []}` and the `required` entry
is overwritten only when at least one property is required, so the key is
present in every output (empty array when nothing is required). -/
def serializeDefinition (definition : Definition) : Except String (Rcd Value) :=
  match serializePropsAux [] [] definition.properties with
  | .error e => .error e
  | .ok (props, requiredFields) =>
    let req : List String := if requiredFields.length > 0 then requiredFields else []
    .ok [("description", .str definition.description),
         ("type", .str "object"),
         ("properties", .obj (VFields.ofList props)),
         ("required", .arr (VList.ofList (req.map .str)))]

/-- The `ParameterSegment` interface of `src/main.ts`. -/
structure ParameterSegment : Type where
  name : String
  minLength : Option Int
  maxLength : Option Int
  pattern : Option String
  deriving DecidableEq

/-- A `PathSuffix`: ordered list of (literal segment, parameter segment). -/
abbrev PathSuffix : Type := List (String × ParameterSegment)

/-- `serializePathSuffix` from `src/main.ts`. -/
def serializePathSuffix (ps : PathSuffix) : String :=
  String.intercalate "/" (ps.map (fun v => v.1 ++ "/\x7b" ++ v.2.name ++ "\x7d"))

/-- `resourceDefinitionName` from `src/main.ts`: capitalized last path segment
plus the suffix; throws on the empty path (modelled by `Except.error`).  The
source's default suffix argument is "Resource"; callers here always pass the
suffix explicitly. -/
def resourceDefinitionName (ps : PathSuffix) (suffix : String) : Except String String :=
  match ps.getLast? with
  | none => .error "Cannot get resourceTypeName of empty PathSuffix."
  | some last => .ok (capitalize last.1 ++ suffix)

/-- The `ResourceType` enum of `src/main.ts`. -/
inductive ResourceType : Type where
  | tracked
  | proxy
  | readOnlyProxy
  deriving DecidableEq

/-- The `Resource` interface of `src/main.ts`. -/
structure Resource : Type where
  path : PathSuffix
  resourceType : ResourceType
  readableName : String
  readablePluralName : String
  properties : List (String × Property)
  previewVersion : Option Version
  gaVersion : Option Version
  deprecatedOn : Option Version
  deriving DecidableEq

/-- The `Versioned` part of a resource. -/
def Resource.toVersioned (r : Resource) : Versioned :=
  ⟨r.previewVersion, r.gaVersion, r.deprecatedOn⟩

/-- The `Method` enum of `src/main.ts`. -/
inductive Method : Type where
  | get
  | put
  | patch
  | delete
  deriving DecidableEq

/-- The shared `$ref` parameter for the subscription id. -/
def subscriptionIdParameter : Value :=
  .obj (.cons "$ref"
    (.str "../../../../../common-types/resource-management/v2/types.json#/parameters/SubscriptionIdParameter") .nil)

/-- The shared `$ref` parameter for the resource group name. -/
def resourceGroupNameParameter : Value :=
  .obj (.cons "$ref"
    (.str "../../../../../common-types/resource-management/v2/types.json#/parameters/ResourceGroupNameParameter") .nil)

/-- The shared `$ref` parameter for the api version. -/
def apiVersionParameter : Value :=
  .obj (.cons "$ref"
    (.str "../../../../../common-types/resource-management/v2/types.json#/parameters/ApiVersionParameter") .nil)

/-- The `$ref` parameter generated for one path segment. -/
def segmentParameter (segment : String × ParameterSegment) : Value :=
  .obj (.cons "$ref" (.str ("#/parameters/" ++ segment.2.name)) .nil)

/-- The body parameter emitted for Put and Patch handlers. -/
def bodyParameter (readableName : String) (defn : String) : Value :=
  .obj (VFields.ofList
    [("name", .str "body"),
     ("in", .str "body"),
     ("required", .bool true),
     ("schema", .obj (.cons "$ref" (.str defn) .nil)),
     ("description", .str ("The properties to set on this " ++ readableName ++ "."))])

/-- The `opKind` switch at the top of `serializeHandler`. -/
def opKind : Method → String
  | .get => "Get"
  | .put => "CreateUpdate"
  | .patch => "Update"
  | .delete => "Delete"

/-- The method-specific `description` string of `serializeHandler`. -/
def handlerDescription (readableName : String) : Method → String
  | .get => "Get the properties of this " ++ readableName ++ "."
  | .put => "Create or update this " ++ readableName ++
      ". If updating, all properties must be provided. Use PATCH to update with only some properties."
  | .delete => "Delete this " ++ readableName ++ "."
  | .patch => "Update properties of this " ++ readableName ++
      ". Any properties not provided will not be altered."

/-- The method-specific `responses` record of `serializeHandler`. -/
def handlerResponses (readableName : String) (defn : String) : Method → Rcd Value
  | .get =>
    [("200", .obj (VFields.ofList
      [("description", .str ("The properties of this " ++ readableName ++ " were retrieved successfully.")),
       ("schema", .obj (.cons "$ref" (.str defn) .nil))]))]
  | .delete =>
    [("202", .obj (VFields.ofList
      [("description", .str ("Accepted. This " ++ readableName ++ " will be deleted asynchronously."))])),
     ("204", .obj (VFields.ofList
      [("description", .str ("No such " ++ readableName ++ " to delete."))]))]
  | .put =>
    [("200", .obj (VFields.ofList
      [("description", .str ("This " ++ readableName ++
          " is being updated. Poll for provisioningState=Succeeded, Failed, or Cancelled for completion.")),
       ("schema", .obj (.cons "$ref" (.str defn) .nil))])),
     ("201", .obj (VFields.ofList
      [("description", .str ("This " ++ readableName ++
          " is being created. Poll for provisioningState=Succeeded, Failed, or Cancelled for completion.")),
       ("schema", .obj (.cons "$ref" (.str defn) .nil))]))]
  | .patch =>
    [("200", .obj (VFields.ofList
      [("description", .str ("Completed synchronously. This will only happen if the values provided match those already present in this " ++ readableName ++ ".")),
       ("schema", .obj (.cons "$ref" (.str defn) .nil))])),
     ("202", .obj (VFields.ofList
      [("description", .str ("This " ++ readableName ++
          " is being updated asynchronously. Poll the provided operation for completion.")),
       ("schema", .obj (.cons "$ref" (.str defn) .nil))]))]

/-- `serializeHandler` from `src/main.ts`: the operation descriptor for one
CRUD method of a resource.  The parameter list is, in order: subscription id
ref, resource group name ref, one ref per path segment, api version ref, and a
body parameter for Put and Patch only.  The throw raised by
`resourceDefinitionName` on an empty path is modelled by `Except.error`. -/
def serializeHandler (resource : Resource) (method : Method) : Except String (Rcd Value) :=
  match resourceDefinitionName resource.path "Resource" with
  | .error e => .error e
  | .ok rdName =>
    let defn := "#/definitions/" ++ rdName
    let parameters : List Value :=
      [subscriptionIdParameter, resourceGroupNameParameter]
        ++ resource.path.map segmentParameter
        ++ [apiVersionParameter]
        ++ (if method = .put ∨ method = .patch then
              [bodyParameter resource.readableName defn]
            else [])
    .ok ([("operationId", .str (capitalize resource.readablePluralName ++ "_" ++ opKind method)),
          ("parameters", .arr (VList.ofList parameters)),
          ("description", .str (handlerDescription resource.readableName method))]
         ++ (if method ≠ .get then [("x-ms-long-running-operation", .bool true)] else [])
         ++ [("responses", .obj (VFields.ofList (handlerResponses resource.readableName defn method)))])

/-- `pathsFromResource` from `src/main.ts`: the single path entry carrying the
four CRUD operations of a resource. -/
def pathsFromResource (resource : Resource) (ns : String) (targetVersion : TargetVersion) :
    Except String (Rcd Value) :=
  match serializeHandler resource .get with
  | .error e => .error e
  | .ok g =>
    match serializeHandler resource .put with
    | .error e => .error e
    | .ok pu =>
      match serializeHandler resource .patch with
      | .error e => .error e
      | .ok pa =>
        match serializeHandler resource .delete with
        | .error e => .error e
        | .ok d =>
          let resourcePath :=
            "/subscriptions/\x7bsubscriptionId\x7d/resourceGroups/\x7bresourceGroupName\x7d/providers/"
              ++ ns ++ "/" ++ serializePathSuffix resource.path
          .ok [(resourcePath, .obj (VFields.ofList
            [("get", .obj (VFields.ofList g)),
             ("put", .obj (VFields.ofList pu)),
             ("patch", .obj (VFields.ofList pa)),
             ("delete", .obj (VFields.ofList d))]))]

/-- The module-level `commonTrackedProperties` constant of `src/main.ts` (its
initial contents: the four standard ARM envelope fields). -/
def commonTrackedProperties : Rcd Property :=
  [("id", .mk "The unique resource identifier of the ARM resource." .string (some ReadOnly)
        none none none none),
   ("name", .mk "The name of the ARM resource." .string (some Immutable)
        none none none none),
   ("type", .mk "The type of Azure resource." .string (some ReadOnly)
        none none none none),
   ("location", .mk "The location this resource exists in." .string (some Immutable)
        none none none none)]

/-- `definitionsFromResource` from `src/main.ts`.  For a Tracked resource the
source sets `properties = commonTrackedProperties` — aliasing, not copying,
the module-level constant — and then executes `properties["properties"] = ...`
on the alias.  That mutation is modelled by threading the current contents of
the shared table: `ctp` is the table before the call and the second component
of the result is the table after the call. -/
def definitionsFromResource (resource : Resource) (targetVersion : TargetVersion)
    (ctp : Rcd Property) : Except String (Rcd Value × Rcd Property) :=
  match resourceDefinitionName resource.path "Properties" with
  | .error e => .error e
  | .ok propsName =>
    let base : Rcd Property := if resource.resourceType = .tracked then ctp else []
    let propEntry : Property :=
      .mk ("Properties of a " ++ resource.readableName ++ ".") (.xref propsName)
          none none none none none
    let properties := assign base "properties" propEntry
    let ctp2 := if resource.resourceType = .tracked then properties else ctp
    match resourceDefinitionName resource.path "Resource" with
    | .error e => .error e
    | .ok resName =>
      match serializeDefinition ⟨"A " ++ resource.readableName ++ ".", properties⟩ with
      | .error e => .error e
      | .ok d1 =>
        match serializeDefinition ⟨"Properties of a " ++ resource.readableName, resource.properties⟩ with
        | .error e => .error e
        | .ok d2 =>
          .ok (assign (assign [] resName (.obj (VFields.ofList d1))) propsName (.obj (VFields.ofList d2)),
               ctp2)

/-! ### Auxiliary definitions used by the theorem statements -/

/-- Left-biased choice on options (the JS `a ?? b` shape used to state lookup
facts about merged dictionaries). -/
def oor {T : Type} : Option T → Option T → Option T
  | some x, _ => some x
  | none, b => b

/-- The values that a key takes across a list of dictionaries, in input
order (one entry per input dictionary that contains the key). -/
def valuesFor {T : Type} : List (Rcd T) → String → List T
  | [], _ => []
  | r :: rs, k =>
    match rlookup r k with
    | some v => v :: valuesFor rs k
    | none => valuesFor rs k

/-- The removal rule the specification and the claim state for preview-only
entities: `deprecatedOn` plus exactly six calendar months, rolling into the
next year when the sum exceeds month 12.  Stated from the claim's words, to
be compared with the source's `removalDate`. -/
def plusSixMonths (d : Version) : Version :=
  if d.month + 6 > 12 then ⟨d.year + 1, d.month + 6 - 12, d.day⟩
  else ⟨d.year, d.month + 6, d.day⟩

/-- Does a field type contain an object type anywhere a serializer would
reach it (at top level or nested under arrays)? -/
def containsObject : FieldType → Bool
  | .object _ _ _ => true
  | .array elementKind => containsObject elementKind
  | _ => false

/-- The names of the properties whose `required` flag is set, in property
order (the `requiredFields` list built by `serializeDefinition`). -/
def requiredNames : List (String × Property) → List String
  | [] => []
  | (k, p) :: rest =>
    if p.required = some true then k :: requiredNames rest else requiredNames rest

/-- Is a serialized parameter a body parameter (its `in` field is "body")? -/
def isBodyParam : Value → Bool
  | .obj fields => vlookup fields "in" = some (.str "body")
  | _ => false

/-- Are all properties in a record of non-object type? -/
def propsNonObject : Props → Bool
  | .nil => true
  | .cons _ p rest => !p.type.isObjectKind && propsNonObject rest

/-- The subrecord of the properties visible at a target version, as emitted
by the extractor's loop for a flat (object-free) property record. -/
def propsFilter (targetVersion : TargetVersion) : Props → List (String × Property)
  | .nil => []
  | .cons k p rest =>
    if inVersion p.toVersioned targetVersion then (k, p) :: propsFilter targetVersion rest
    else propsFilter targetVersion rest

/-- The xref replacement of an object-typed property emitted by the
extractor: description and ga/preview dates survive, the rest is dropped. -/
def xrefProp (p : Property) (target : String) : Property :=
  .mk p.description (.xref target) none none p.previewVersion p.gaVersion none

/-- The Tracked example resource of `example/example.ts`
(`genericResources`). -/
def exampleResource : Resource :=
  ⟨[("genericResources", ⟨"resourceName", none, none, none⟩)], .tracked,
   "generic resource", "generic resources",
   [("field1", .mk "First field of the resource." .string none none (some ⟨2021, 4, 1⟩) none none)],
   some ⟨2021, 4, 1⟩, none, none⟩

/-- A resource whose path is the empty sequence of segments. -/
def emptyPathResource : Resource :=
  ⟨[], .proxy, "thing", "things", [], some ⟨2021, 4, 1⟩, none, none⟩

/-- Is an `Except` computation successful? -/
def exceptIsOk {T : Type} : Except String T → Bool
  | .ok _ => true
  | .error _ => false

/-! ### Helper lemmas -/

theorem oor_none_right {T : Type} (a : Option T) : oor a none = a := by
  cases a <;> rfl

theorem oor_some_left {T : Type} (x : T) (b : Option T) : oor (some x) b = some x := rfl

theorem oor_assoc {T : Type} (a b c : Option T) : oor (oor a b) c = oor a (oor b c) := by
  cases a <;> cases b <;> rfl

theorem rlookup_append {T : Type} (p q : Rcd T) (k : String) :
    rlookup (p ++ q) k = oor (rlookup p k) (rlookup q k) := by
  induction p with
  | nil => simp [rlookup, oor]
  | cons hd tl ih =>
    obtain ⟨k0, v0⟩ := hd
    by_cases h : k0 = k <;> simp [rlookup, h, ih, oor]

theorem rlookup_eq_none_iff {T : Type} (r : Rcd T) (k : String) :
    rlookup r k = none ↔ k ∉ keys r := by
  induction r with
  | nil => simp [rlookup, keys]
  | cons hd tl ih =>
    obtain ⟨k0, v0⟩ := hd
    by_cases h : k0 = k
    · subst h
      simp [rlookup, keys]
    · simp only [rlookup, keys, List.map_cons, List.mem_cons, if_neg h, ih]
      constructor
      · intro hn hor
        rcases hor with hor | hor
        · exact h hor.symm
        · exact hn hor
      · intro hn hmem
        exact hn (Or.inr hmem)

theorem keys_append {T : Type} (p q : Rcd T) : keys (p ++ q) = keys p ++ keys q := by
  simp [keys]

/-! ### C1 -/

/-- C1: on a preview-only entity the source's `removalDate` does not add six
calendar months when the deprecation month exceeds 5; it adds seven (here
2021-07-01 becomes 2022-02-01 instead of the claimed 2022-01-01).  The
claim's own concrete examples (month 1) do hold. -/
theorem removalDate_not_six_months :
    removalDate ⟨some ⟨2020, 12, 1⟩, none, some ⟨2021, 7, 1⟩⟩ = some ⟨2022, 2, 1⟩ ∧
    plusSixMonths ⟨2021, 7, 1⟩ = ⟨2022, 1, 1⟩ ∧
    removalDate ⟨some ⟨2020, 12, 1⟩, none, some ⟨2021, 7, 1⟩⟩ ≠ some (plusSixMonths ⟨2021, 7, 1⟩) ∧
    removalDate ⟨some ⟨2020, 12, 1⟩, none, some ⟨2021, 1, 1⟩⟩ = some ⟨2021, 7, 1⟩ ∧
    inVersion ⟨some ⟨2020, 12, 1⟩, none, some ⟨2021, 1, 1⟩⟩ (⟨2021, 2, 1⟩, .preview) = true ∧
    inVersion ⟨some ⟨2020, 12, 1⟩, none, some ⟨2021, 1, 1⟩⟩ (⟨2021, 10, 1⟩, .preview) = false := by
  decide

/-! ### C2 -/

/-- C2 counterexample: an entity whose `gaVersion` (2020-01-01) is `atMost`
the target date (2023-01-01) but whose deprecation removal date has passed is
not visible, refuting the claim that `atMost(gaVersion, v.date)` alone makes
`inVersion` true for every entity, including those with a `deprecatedOn`
date. -/
theorem inVersion_ga_counterexample :
    atMost ⟨2020, 1, 1⟩ ⟨2023, 1, 1⟩ = true ∧
    (⟨none, some ⟨2020, 1, 1⟩, some ⟨2019, 6, 1⟩⟩ : Versioned).gaVersion = some ⟨2020, 1, 1⟩ ∧
    inVersion ⟨none, some ⟨2020, 1, 1⟩, some ⟨2019, 6, 1⟩⟩ (⟨2023, 1, 1⟩, .ga) = false := by
  decide

/-- C2 amended: if `gaVersion` is set and `atMost` the target date, and the
removal cutoff has not been reached (no removal date, or one not `atMost`
the target date), then `inVersion` is true under both channels. -/
theorem inVersion_of_ga_atMost (it : Versioned) (v : Version) (k : VersionKind) (g : Version)
    (hg : it.gaVersion = some g) (hga : atMost g v = true)
    (hrd : ∀ rd, removalDate it = some rd → atMost rd v = false) :
    inVersion it (v, k) = true := by
  have hcv : channelVisible it v k = true := by
    cases k <;> simp [channelVisible, hg, hga]
  unfold inVersion
  cases hr : removalDate it with
  | none => simpa using hcv
  | some rd => simpa [hrd rd hr] using hcv

/-- Witness for C2's amended theorem at a concrete entity and target. -/
theorem inVersion_of_ga_atMost_witness :
    inVersion ⟨none, some ⟨2020, 1, 1⟩, none⟩ (⟨2021, 1, 1⟩, .ga) = true :=
  inVersion_of_ga_atMost ⟨none, some ⟨2020, 1, 1⟩, none⟩ ⟨2021, 1, 1⟩ .ga ⟨2020, 1, 1⟩
    (by decide) (by decide)
    (fun rd h => by simp [removalDate] at h)

/-! ### C6 -/

/-- C6 counterexample: an array of an object is not itself of object kind,
yet `serializeFieldType` throws on it (the recursive `items` serialization
hits the object), refuting "for every non-object FieldType it returns the
stated inline wire shape without error". -/
theorem serializeFieldType_array_object_counterexample :
    FieldType.isObjectKind (.array (.object "Nested" "N" .nil)) = false ∧
    serializeFieldType (.array (.object "Nested" "N" .nil)) =
      .error "Cannot serialize field type object." := by
  decide

theorem serializeFieldType_isOk : ∀ ft : FieldType,
    exceptIsOk (serializeFieldType ft) = !containsObject ft
  | .bool => rfl
  | .string => rfl
  | .int32 => rfl
  | .int64 => rfl
  | .float => rfl
  | .enum _ _ => rfl
  | .xref _ => rfl
  | .object _ _ _ => rfl
  | .array ek => by
    have ih := serializeFieldType_isOk ek
    cases hek : serializeFieldType ek with
    | ok items =>
      rw [hek] at ih
      simp [serializeFieldType, hek, containsObject, ← ih, exceptIsOk]
    | error er =>
      rw [hek] at ih
      simp [serializeFieldType, hek, containsObject, ← ih, exceptIsOk]

/-- C6 amended: `serializeFieldType` throws exactly on the field types that
contain an object at a position it reaches (top level, or nested under
arrays); every object-free field type serializes without error to the stated
inline wire shape (fixed scalar shapes, enum, xref reference, array with
recursively serialized items), and an object-kind input always throws. -/
theorem serializeFieldType_spec :
    (∀ ft : FieldType, exceptIsOk (serializeFieldType ft) = !containsObject ft) ∧
    (∀ dn dd dp, serializeFieldType (.object dn dd dp) =
      .error "Cannot serialize field type object.") ∧
    serializeFieldType .string = .ok [("type", .str "string")] ∧
    serializeFieldType .bool = .ok [("type", .str "boolean")] ∧
    serializeFieldType .int32 = .ok [("type", .str "integer"), ("format", .str "int32")] ∧
    serializeFieldType .int64 = .ok [("type", .str "integer"), ("format", .str "int64")] ∧
    serializeFieldType .float = .ok [("type", .str "number"), ("format", .str "double")] ∧
    (∀ n vs, serializeFieldType (.enum n vs) =
      .ok [("type", .str "string"),
           ("enum", .arr (VList.ofList (vs.map .str))),
           ("x-ms-enum", .obj (VFields.ofList [("modelAsString", .bool true), ("name", .str n)]))]) ∧
    (∀ t, serializeFieldType (.xref t) = .ok [("$ref", .str ("#/definitions/" ++ t))]) ∧
    (∀ e items, serializeFieldType e = .ok items →
      serializeFieldType (.array e) =
        .ok [("type", .str "array"), ("items", .obj (VFields.ofList items))]) :=
  ⟨serializeFieldType_isOk, fun _ _ _ => rfl, rfl, rfl, rfl, rfl, rfl, fun _ _ => rfl,
    fun _ => rfl, fun _ items h => by simp [serializeFieldType, h]⟩

/-- Witness for C6's amended theorem: the array conjunct applied at a string
element type. -/
theorem serializeFieldType_spec_witness :
    serializeFieldType (.array .string) =
      .ok [("type", .str "array"), ("items", .obj (VFields.ofList [("type", .str "string")]))] :=
  serializeFieldType_spec.2.2.2.2.2.2.2.2.2 .string [("type", .str "string")] (by decide)

/-! ### C10 -/

/-- C10: a resource with an empty path cannot be compiled:
`resourceDefinitionName` throws on the empty suffix, and therefore
`serializeHandler`, `definitionsFromResource` and `pathsFromResource` all
abort instead of producing output. -/
theorem emptyPath_aborts (resource : Resource) (ns : String) (tv : TargetVersion)
    (ctp : Rcd Property) (suffix : String) (method : Method)
    (h : resource.path = []) :
    resourceDefinitionName resource.path suffix =
      .error "Cannot get resourceTypeName of empty PathSuffix." ∧
    exceptIsOk (serializeHandler resource method) = false ∧
    exceptIsOk (definitionsFromResource resource tv ctp) = false ∧
    exceptIsOk (pathsFromResource resource ns tv) = false := by
  have h1 : ∀ s, resourceDefinitionName resource.path s =
      .error "Cannot get resourceTypeName of empty PathSuffix." := by
    intro s
    simp [resourceDefinitionName, h]
  have h2 : ∀ m, serializeHandler resource m = .error "Cannot get resourceTypeName of empty PathSuffix." := by
    intro m
    simp [serializeHandler, h1]
  refine ⟨h1 suffix, ?_, ?_, ?_⟩
  · simp [h2, exceptIsOk]
  · simp [definitionsFromResource, h1, exceptIsOk]
  · simp [pathsFromResource, h2, exceptIsOk]

/-! ### C4 -/

theorem serializePropsAux_req : ∀ (ps : List (String × Property)) (acc : Rcd Value)
    (reqAcc : List String) (props : Rcd Value) (reqF : List String),
    serializePropsAux acc reqAcc ps = .ok (props, reqF) →
    reqF = reqAcc ++ requiredNames ps := by
  intro ps
  induction ps with
  | nil =>
    intro acc reqAcc props reqF h
    simp only [serializePropsAux, Except.ok.injEq, Prod.mk.injEq] at h
    simp [requiredNames, h.2]
  | cons hd tl ih =>
    obtain ⟨k, p⟩ := hd
    intro acc reqAcc props reqF h
    by_cases hreq : p.required = some true
    · simp only [serializePropsAux, hreq, if_pos] at h
      split at h
      · exact absurd h (by simp)
      · split at h
        · exact absurd h (by simp)
        · have := ih _ _ _ _ h
          simp [this, requiredNames, hreq]
    · simp only [serializePropsAux, hreq, if_neg, if_false] at h
      split at h
      · exact absurd h (by simp)
      · split at h
        · exact absurd h (by simp)
        · have := ih _ _ _ _ h
          simp [this, requiredNames, hreq]

/-- C4 counterexample: a definition with one (unrequired) property still
serializes with a `required` key, holding the empty array; the claim says
the key is omitted entirely in that case. -/
theorem serializeDefinition_required_counterexample :
    serializeDefinition ⟨"D", [("p", .mk "P" .string none none none none none)]⟩ =
      .ok [("description", .str "D"), ("type", .str "object"),
           ("properties", .obj (.cons "p" (.obj (.cons "description" (.str "P")
              (.cons "type" (.str "string") .nil))) .nil)),
           ("required", .arr .nil)] ∧
    (match serializeDefinition ⟨"D", [("p", .mk "P" .string none none none none none)]⟩ with
     | .ok r => hasKey r "required"
     | .error _ => false) = true := by
  decide

/-- C4 amended: `serializeDefinition` always emits the `required` key: on
success its value is the array of the names of the properties whose required
flag is set, in property order — the empty array when no property is required
(the key is never omitted).  In particular the empty definition serializes to
`{description, type: "object", properties: {}, required: []}` as the claim's
parenthetical states. -/
theorem serializeDefinition_required_spec (definition : Definition) (r : Rcd Value)
    (h : serializeDefinition definition = .ok r) :
    rlookup r "required" =
      some (.arr (VList.ofList ((requiredNames definition.properties).map .str))) ∧
    serializeDefinition ⟨"Hello", []⟩ =
      .ok [("description", .str "Hello"), ("type", .str "object"),
           ("properties", .obj .nil), ("required", .arr .nil)] := by
  refine ⟨?_, by decide⟩
  unfold serializeDefinition at h
  cases hsp : serializePropsAux [] [] definition.properties with
  | error e =>
    rw [hsp] at h
    cases h
  | ok pr =>
    obtain ⟨props, reqF⟩ := pr
    rw [hsp] at h
    have hreq : reqF = requiredNames definition.properties := by
      simpa using serializePropsAux_req definition.properties [] [] props reqF hsp
    have hif : (if reqF.length > 0 then reqF else []) = reqF := by
      cases reqF <;> simp
    simp only [hif, Except.ok.injEq] at h
    subst h
    simp [rlookup, hreq]

/-- Witness for C4's amended theorem at the empty definition. -/
theorem serializeDefinition_required_spec_witness :
    serializeDefinition ⟨"Hello", []⟩ =
      .ok [("description", .str "Hello"), ("type", .str "object"),
           ("properties", .obj .nil), ("required", .arr .nil)] ∧
    rlookup [("description", Value.str "Hello"), ("type", Value.str "object"),
             ("properties", Value.obj .nil), ("required", Value.arr .nil)] "required" =
      some (.arr (VList.ofList ((requiredNames (⟨"Hello", []⟩ : Definition).properties).map .str))) :=
  ⟨by decide, (serializeDefinition_required_spec ⟨"Hello", []⟩ _ (by decide)).1⟩

/-! ### C5 -/

theorem strLe_go_total : ∀ cs ds, strLe.go cs ds = true ∨ strLe.go ds cs = true := by
  intro cs
  induction cs with
  | nil => intro ds; left; rfl
  | cons c cst ih =>
    intro ds
    cases ds with
    | nil => right; rfl
    | cons d dst =>
      by_cases h1 : c.val < d.val
      · left
        simp [strLe.go, h1]
      · by_cases h2 : d.val < c.val
        · right
          simp [strLe.go, h2]
        · simpa [strLe.go, h1, h2] using ih dst

theorem strLe_total (a b : String) : strLe a b = true ∨ strLe b a = true := by
  simpa [strLe] using strLe_go_total a.data b.data

theorem insort_chain' (x : String) (l : List String)
    (hl : List.Chain' (fun a b => strLe a b = true) l) :
    List.Chain' (fun a b => strLe a b = true) (insortStr x l) := by
  induction l with
  | nil => simp [insortStr]
  | cons y ys ih =>
    by_cases h : strLe x y
    · rw [insortStr, if_pos h]
      exact List.chain'_cons.mpr ⟨h, hl⟩
    · rw [insortStr, if_neg h]
      have hyx : strLe y x = true := by
        rcases strLe_total x y with ht | ht
        · exact absurd ht h
        · exact ht
      have hins := ih hl.tail
      apply List.chain'_cons'.mpr
      refine ⟨?_, hins⟩
      intro z hz
      cases ys with
      | nil =>
        simp [insortStr] at hz
        subst hz
        exact hyx
      | cons w ws =>
        by_cases h2 : strLe x w
        · rw [insortStr, if_pos h2] at hz
          simp at hz
          subst hz
          exact hyx
        · rw [insortStr, if_neg h2] at hz
          simp at hz
          subst hz
          exact (List.chain'_cons.mp hl).1

theorem sortStrs_chain' (l : List String) :
    List.Chain' (fun a b => strLe a b = true) (sortStrs l) := by
  induction l with
  | nil => simp [sortStrs]
  | cons x xs ih => exact insort_chain' x (sortStrs xs) ih

theorem insort_perm (x : String) (l : List String) : (insortStr x l).Perm (x :: l) := by
  induction l with
  | nil => rfl
  | cons y ys ih =>
    by_cases h : strLe x y
    · rw [insortStr, if_pos h]
    · rw [insortStr, if_neg h]
      exact (ih.cons y).trans (List.Perm.swap x y ys)

theorem sortStrs_perm (l : List String) : (sortStrs l).Perm l := by
  induction l with
  | nil => rfl
  | cons x xs ih => exact (insort_perm x (sortStrs xs)).trans (ih.cons x)

/-- C5 counterexample: a freshly allocated set whose elements are exactly
`{Read}` — the same elements as the `ReadOnly` constant — does not get
`readOnly: true`, because the source compares sets with `==` (reference
equality), refuting "this holds for any set with those elements". -/
theorem serializeMutability_fresh_set_counterexample :
    (⟨4, [.read]⟩ : MutSet).elems = ReadOnly.elems ∧
    hasKey (serializeMutability (some ⟨4, [.read]⟩)) "readOnly" = false := by
  decide

/-- C5 amended: `serializeMutability` emits `readOnly: true` exactly when its
argument is the `ReadOnly` constant itself (reference equality, not element
equality), and `x-ms-secret: true` exactly when it is the `ImmutableSecret`
or `MutableSecret` constant itself; `x-ms-mutability` is always present and
holds the set's string tags sorted lexicographically (a sorted permutation of
the tags); an undefined mutability yields the empty fragment. -/
theorem serializeMutability_spec (mt : MutSet) :
    (hasKey (serializeMutability (some mt)) "readOnly" = true ↔ mt = ReadOnly) ∧
    (hasKey (serializeMutability (some mt)) "x-ms-secret" = true ↔
      mt = ImmutableSecret ∨ mt = MutableSecret) ∧
    rlookup (serializeMutability (some mt)) "x-ms-mutability" =
      some (.arr (VList.ofList ((sortStrs (mt.elems.map mutTag)).map .str))) ∧
    (sortStrs (mt.elems.map mutTag)).Perm (mt.elems.map mutTag) ∧
    List.Chain' (fun a b => strLe a b = true) (sortStrs (mt.elems.map mutTag)) ∧
    serializeMutability none = [] := by
  by_cases h1 : mt = ReadOnly
  · subst h1
    exact ⟨by decide, by decide, by decide, sortStrs_perm _, sortStrs_chain' _, rfl⟩
  · by_cases h2 : mt = ImmutableSecret
    · subst h2
      exact ⟨by decide, by decide, by decide, sortStrs_perm _, sortStrs_chain' _, rfl⟩
    · by_cases h3 : mt = MutableSecret
      · subst h3
        exact ⟨by decide, by decide, by decide, sortStrs_perm _, sortStrs_chain' _, rfl⟩
      · have h23 : ¬(mt = ImmutableSecret ∨ mt = MutableSecret) := by
          tauto
        refine ⟨?_, ?_, ?_, sortStrs_perm _, sortStrs_chain' _, rfl⟩
        · simp [serializeMutability, hasKey, rlookup, h1, h23]
        · simp [serializeMutability, hasKey, rlookup, h1, h23]
        · simp [serializeMutability, hasKey, rlookup, h1, h23]

/-- Witness for C5's amended theorem at a fresh singleton set. -/
theorem serializeMutability_spec_witness :
    rlookup (serializeMutability (some ⟨4, [.read]⟩)) "x-ms-mutability" =
      some (.arr (VList.ofList ((sortStrs ((⟨4, [.read]⟩ : MutSet).elems.map mutTag)).map .str))) :=
  (serializeMutability_spec ⟨4, [.read]⟩).2.2.1

/-- Witness for C10 at the concrete empty-path resource. -/
theorem emptyPath_aborts_witness :
    resourceDefinitionName emptyPathResource.path "Resource" =
      .error "Cannot get resourceTypeName of empty PathSuffix." ∧
    exceptIsOk (serializeHandler emptyPathResource .put) = false ∧
    exceptIsOk (definitionsFromResource emptyPathResource (⟨2021, 4, 1⟩, .preview)
      commonTrackedProperties) = false ∧
    exceptIsOk (pathsFromResource emptyPathResource "Microsoft.Example"
      (⟨2021, 4, 1⟩, .preview)) = false :=
  emptyPath_aborts emptyPathResource "Microsoft.Example" (⟨2021, 4, 1⟩, .preview)
    commonTrackedProperties "Resource" .put rfl

/-! ### C3 -/

theorem insertIdem_spec {T : Type} [DecidableEq T] :
    ∀ (r result : Rcd T), (keys result).Nodup → (keys r).Nodup →
    (∀ u, insertIdem result r = .ok u →
      (∀ k, rlookup u k = oor (rlookup result k) (rlookup r k)) ∧
      (keys u).Nodup ∧
      (∀ k v w, rlookup result k = some v → rlookup r k = some w → v = w)) ∧
    (∀ e, insertIdem result r = .error e →
      ∃ k v w, rlookup result k = some v ∧ rlookup r k = some w ∧ v ≠ w ∧
        e = "Conflicting definitions found of key " ++ k ++ ".") := by
  intro r
  induction r with
  | nil =>
    intro result hres _
    constructor
    · intro u hu
      simp only [insertIdem, Except.ok.injEq] at hu
      subst hu
      refine ⟨fun k => by simp [rlookup, oor_none_right], hres, ?_⟩
      intro k v w _ hw
      simp [rlookup] at hw
    · intro e he
      simp [insertIdem] at he
  | cons hd rest ih =>
    obtain ⟨k0, v0⟩ := hd
    intro result hres hr
    have hk0 : k0 ∉ keys rest ∧ (keys rest).Nodup := by
      simpa [keys] using hr
    cases hlk : rlookup result k0 with
    | some orig =>
      by_cases heq : orig = v0
      · have IH := ih result hres hk0.2
        constructor
        · intro u hu
          simp only [insertIdem, hlk, if_pos heq] at hu
          obtain ⟨ha, hb, hc⟩ := IH.1 u hu
          refine ⟨?_, hb, ?_⟩
          · intro k
            by_cases hk : k0 = k
            · subst hk
              rw [ha k0, hlk]
              simp [rlookup, oor]
            · rw [ha k]
              simp [rlookup, hk]
          · intro k v w hv hw
            by_cases hk : k0 = k
            · subst hk
              simp only [rlookup, if_pos rfl] at hw
              rw [hlk] at hv
              cases hv
              cases hw
              exact heq
            · exact hc k v w hv (by simpa [rlookup, hk] using hw)
        · intro e he
          simp only [insertIdem, hlk, if_pos heq] at he
          obtain ⟨k, v, w, h1, h2, h3, h4⟩ := IH.2 e he
          have hkk : k0 ≠ k := by
            intro hh
            subst hh
            rw [(rlookup_eq_none_iff rest k0).mpr hk0.1] at h2
            cases h2
          exact ⟨k, v, w, h1, by simpa [rlookup, hkk] using h2, h3, h4⟩
      · constructor
        · intro u hu
          simp [insertIdem, hlk, if_neg heq] at hu
        · intro e he
          simp only [insertIdem, hlk, if_neg heq, Except.error.injEq] at he
          exact ⟨k0, orig, v0, hlk, by simp [rlookup], heq, he.symm⟩
    | none =>
      have hnotin : k0 ∉ keys result := (rlookup_eq_none_iff result k0).mp hlk
      have hres2 : (keys (result ++ [(k0, v0)])).Nodup := by
        rw [keys_append]
        refine List.Nodup.append hres (List.nodup_singleton k0) ?_
        intro a ha hb
        simp only [keys, List.map_cons, List.map_nil, List.mem_singleton] at hb
        subst hb
        exact hnotin ha
      have IH := ih (result ++ [(k0, v0)]) hres2 hk0.2
      constructor
      · intro u hu
        simp only [insertIdem, hlk] at hu
        obtain ⟨ha, hb, hc⟩ := IH.1 u hu
        refine ⟨?_, hb, ?_⟩
        · intro k
          rw [ha k, rlookup_append, oor_assoc]
          congr 1
          by_cases hk : k0 = k <;> simp [rlookup, hk, oor]
        · intro k v w hv hw
          by_cases hk : k0 = k
          · subst hk
            rw [hlk] at hv
            cases hv
          · have hv2 : rlookup (result ++ [(k0, v0)]) k = some v := by
              rw [rlookup_append, hv]
              rfl
            exact hc k v w hv2 (by simpa [rlookup, hk] using hw)
      · intro e he
        simp only [insertIdem, hlk] at he
        obtain ⟨k, v, w, h1, h2, h3, h4⟩ := IH.2 e he
        have hkk : k0 ≠ k := by
          intro hh
          subst hh
          rw [(rlookup_eq_none_iff rest k0).mpr hk0.1] at h2
          cases h2
        have h1b : rlookup result k = some v := by
          rw [rlookup_append] at h1
          cases hres3 : rlookup result k with
          | some x =>
            rw [hres3] at h1
            simpa [oor] using h1
          | none =>
            rw [hres3] at h1
            simp [oor, rlookup, hkk] at h1
        exact ⟨k, v, w, h1b, by simpa [rlookup, hkk] using h2, h3, h4⟩

theorem concatRecordsAux_spec {T : Type} [DecidableEq T] :
    ∀ (records : List (Rcd T)) (result : Rcd T), (keys result).Nodup →
    (∀ r ∈ records, (keys r).Nodup) →
    (∀ u, concatRecordsAux result records = .ok u →
      (∀ k, rlookup u k = oor (rlookup result k) ((valuesFor records k).head?)) ∧
      (keys u).Nodup ∧
      (∀ k v w, rlookup result k = some v → w ∈ valuesFor records k → v = w) ∧
      (∀ k v w, v ∈ valuesFor records k → w ∈ valuesFor records k → v = w)) ∧
    (∀ e, concatRecordsAux result records = .error e →
      ∃ k v w, (rlookup result k = some v ∨ v ∈ valuesFor records k) ∧
        w ∈ valuesFor records k ∧ v ≠ w ∧
        e = "Conflicting definitions found of key " ++ k ++ ".") := by
  intro records
  induction records with
  | nil =>
    intro result hres _
    constructor
    · intro u hu
      simp only [concatRecordsAux, Except.ok.injEq] at hu
      subst hu
      refine ⟨fun k => by simp [valuesFor, oor_none_right], hres, ?_, ?_⟩
      · intro k v w _ hw
        simp [valuesFor] at hw
      · intro k v w hv _
        simp [valuesFor] at hv
    · intro e he
      simp [concatRecordsAux] at he
  | cons r rs ih =>
    intro result hres hnds
    have hrnd : (keys r).Nodup := hnds r (List.mem_cons_self r rs)
    have hrsnd : ∀ q ∈ rs, (keys q).Nodup := fun q hq => hnds q (List.mem_cons_of_mem r hq)
    cases hins : insertIdem result r with
    | error e0 =>
      constructor
      · intro u hu
        simp [concatRecordsAux, hins] at hu
      · intro e he
        simp only [concatRecordsAux, hins] at he
        obtain ⟨k, v, w, h1, h2, h3, h4⟩ := (insertIdem_spec r result hres hrnd).2 e0 hins
        cases he
        exact ⟨k, v, w, Or.inl h1, by simp [valuesFor, h2], h3, h4⟩
    | ok r1 =>
      obtain ⟨ha1, hb1, hc1⟩ := (insertIdem_spec r result hres hrnd).1 r1 hins
      have IH := ih r1 hb1 hrsnd
      constructor
      · intro u hu
        simp only [concatRecordsAux, hins] at hu
        obtain ⟨ga, gb, gc, gd⟩ := IH.1 u hu
        have hx1 : ∀ k x, rlookup r k = some x → rlookup r1 k = some x := by
          intro k x hrk
          rw [ha1 k, hrk]
          cases hres2 : rlookup result k with
          | some y =>
            have : y = x := hc1 k y x hres2 hrk
            simp [oor, this]
          | none => rfl
        refine ⟨?_, gb, ?_, ?_⟩
        · intro k
          rw [ga k, ha1 k, oor_assoc]
          congr 1
          cases hrk : rlookup r k <;> simp [valuesFor, hrk, oor]
        · intro k v w hv hw
          cases hrk : rlookup r k with
          | some x =>
            rw [valuesFor, hrk] at hw
            rcases List.mem_cons.mp hw with hw1 | hw2
            · subst hw1
              exact hc1 k v w hv hrk
            · exact gc k v w (by rw [ha1 k, hv]; rfl) hw2
          | none =>
            rw [valuesFor, hrk] at hw
            exact gc k v w (by rw [ha1 k, hv]; rfl) hw
        · intro k v w hv hw
          cases hrk : rlookup r k with
          | some x =>
            rw [valuesFor, hrk] at hv hw
            rcases List.mem_cons.mp hv with hv1 | hv2 <;>
              rcases List.mem_cons.mp hw with hw1 | hw2
            · subst hv1; subst hw1; rfl
            · subst hv1
              exact gc k v w (hx1 k v hrk) hw2
            · subst hw1
              exact (gc k w v (hx1 k w hrk) hv2).symm
            · exact gd k v w hv2 hw2
          | none =>
            rw [valuesFor, hrk] at hv hw
            exact gd k v w hv hw
      · intro e he
        simp only [concatRecordsAux, hins] at he
        obtain ⟨k, v, w, h1, h2, h3, h4⟩ := IH.2 e he
        have hw2 : w ∈ valuesFor (r :: rs) k := by
          cases hrk : rlookup r k <;> simp [valuesFor, hrk, h2]
        rcases h1 with h1 | h1
        · rw [ha1 k] at h1
          cases hres2 : rlookup result k with
          | some y =>
            rw [hres2] at h1
            simp only [oor] at h1
            exact ⟨k, v, w, Or.inl (hres2.trans h1), hw2, h3, h4⟩
          | none =>
            rw [hres2] at h1
            simp only [oor] at h1
            exact ⟨k, v, w, Or.inr (by simp [valuesFor, h1]), hw2, h3, h4⟩
        · refine ⟨k, v, w, Or.inr ?_, hw2, h3, h4⟩
          cases hrk : rlookup r k <;> simp [valuesFor, hrk, h1]

/-- C3: `concatRecords` is the idempotent union of its input dictionaries:
when it succeeds, the result binds each key to its first occurrence across
the inputs (a single copy, with no duplicate keys), and success requires all
occurrences of a key to be deep-equal; when two inputs bind a key to
different values it fails with an error naming that key.  In particular
merging `[{a:1},{a:1}]` succeeds yielding `{a:1}` and merging `[{a:1},{a:2}]`
fails naming `a`. -/
theorem concatRecords_spec {T : Type} [DecidableEq T] (records : List (Rcd T))
    (hnd : ∀ r ∈ records, (keys r).Nodup) :
    (∀ u, concatRecords records = .ok u →
      (∀ k, rlookup u k = (valuesFor records k).head?) ∧
      (keys u).Nodup ∧
      (∀ k v w, v ∈ valuesFor records k → w ∈ valuesFor records k → v = w)) ∧
    (∀ e, concatRecords records = .error e →
      ∃ k v w, v ∈ valuesFor records k ∧ w ∈ valuesFor records k ∧ v ≠ w ∧
        e = "Conflicting definitions found of key " ++ k ++ ".") ∧
    concatRecords [[("a", (1 : Int))], [("a", 1)]] = .ok [("a", 1)] ∧
    concatRecords [[("a", (1 : Int))], [("a", 2)]] =
      .error "Conflicting definitions found of key a." := by
  have base := concatRecordsAux_spec records [] (by simp [keys]) hnd
  refine ⟨?_, ?_, by decide, by decide⟩
  · intro u hu
    obtain ⟨ga, gb, _, gd⟩ := base.1 u hu
    exact ⟨fun k => by simpa [rlookup, oor] using ga k, gb, gd⟩
  · intro e he
    obtain ⟨k, v, w, h1, h2, h3, h4⟩ := base.2 e he
    rcases h1 with h1 | h1
    · simp [rlookup] at h1
    · exact ⟨k, v, w, h1, h2, h3, h4⟩

/-- Witness for C3 at the conflicting concrete input. -/
theorem concatRecords_spec_witness :
    ∃ k v w, (v : Int) ∈ valuesFor [[("a", (1 : Int))], [("a", 2)]] k ∧
      w ∈ valuesFor [[("a", (1 : Int))], [("a", 2)]] k ∧ v ≠ w ∧
      "Conflicting definitions found of key a." =
        "Conflicting definitions found of key " ++ k ++ "." :=
  (concatRecords_spec [[("a", (1 : Int))], [("a", 2)]] (by decide)).2.1
    "Conflicting definitions found of key a." (by decide)

/-! ### C7 -/

/-- C7: for every resource with a non-empty path, the Put handler's parameter
list is, in order: subscription-id ref, resource-group-name ref, one ref per
path segment (in path order), api-version ref, and one body parameter — the
only body parameter in the list — whose schema is a `$ref` to the resource's
root definition; and the 200 and 201 responses both carry a schema that is a
`$ref` to the same root definition. -/
theorem serializeHandler_put_spec (resource : Resource) (last : String × ParameterSegment)
    (defn : String) (h : resource.path.getLast? = some last)
    (hdefn : defn = "#/definitions/" ++ capitalize last.1 ++ "Resource") :
    ∃ target : Rcd Value,
      serializeHandler resource .put = .ok target ∧
      rlookup target "parameters" = some (.arr (VList.ofList
        ([subscriptionIdParameter, resourceGroupNameParameter]
          ++ resource.path.map segmentParameter
          ++ [apiVersionParameter, bodyParameter resource.readableName defn]))) ∧
      ([subscriptionIdParameter, resourceGroupNameParameter]
          ++ resource.path.map segmentParameter
          ++ [apiVersionParameter, bodyParameter resource.readableName defn]).filter isBodyParam
        = [bodyParameter resource.readableName defn] ∧
      (∃ schema, vlookup (VFields.ofList
          [("name", .str "body"), ("in", .str "body"), ("required", .bool true),
           ("schema", .obj (.cons "$ref" (.str defn) .nil)),
           ("description", .str ("The properties to set on this " ++ resource.readableName ++ "."))])
          "schema" = some (.obj schema) ∧ vlookup schema "$ref" = some (.str defn)) ∧
      rlookup target "responses" =
        some (.obj (VFields.ofList (handlerResponses resource.readableName defn .put))) ∧
      (∃ f200, vlookup (VFields.ofList (handlerResponses resource.readableName defn .put)) "200" =
          some (.obj f200) ∧ vlookup f200 "schema" = some (.obj (.cons "$ref" (.str defn) .nil))) ∧
      (∃ f201, vlookup (VFields.ofList (handlerResponses resource.readableName defn .put)) "201" =
          some (.obj f201) ∧ vlookup f201 "schema" = some (.obj (.cons "$ref" (.str defn) .nil))) := by
  subst hdefn
  have hrdn : resourceDefinitionName resource.path "Resource" =
      .ok (capitalize last.1 ++ "Resource") := by
    simp [resourceDefinitionName, h]
  have hfilter : ∀ ps : PathSuffix, (ps.map segmentParameter).filter isBodyParam = [] := by
    intro ps
    rw [List.filter_eq_nil_iff]
    intro a ha
    obtain ⟨seg, _, hseg⟩ := List.mem_map.mp ha
    subst hseg
    simp [isBodyParam, segmentParameter, vlookup]
  have hser : serializeHandler resource .put = .ok
      [("operationId", .str (capitalize resource.readablePluralName ++ "_" ++ opKind .put)),
       ("parameters", .arr (VList.ofList
         ([subscriptionIdParameter, resourceGroupNameParameter]
           ++ resource.path.map segmentParameter
           ++ [apiVersionParameter,
               bodyParameter resource.readableName
                 ("#/definitions/" ++ capitalize last.1 ++ "Resource")]))),
       ("description", .str (handlerDescription resource.readableName .put)),
       ("x-ms-long-running-operation", .bool true),
       ("responses", .obj (VFields.ofList (handlerResponses resource.readableName
         ("#/definitions/" ++ capitalize last.1 ++ "Resource") .put)))] := by
    unfold serializeHandler
    rw [hrdn]
    simp [List.append_assoc, String.append_assoc]
  refine ⟨_, hser, ?_, ?_, ?_, ?_, ?_, ?_⟩
  · simp [rlookup]
  · simp only [List.filter_append, hfilter]
    simp [isBodyParam, bodyParameter, vlookup, VFields.ofList,
      subscriptionIdParameter, resourceGroupNameParameter, apiVersionParameter, List.filter]
  · exact ⟨.cons "$ref" (.str ("#/definitions/" ++ capitalize last.1 ++ "Resource")) .nil,
      by simp [vlookup, VFields.ofList], by simp [vlookup]⟩
  · simp [rlookup]
  · refine ⟨VFields.cons "description" (.str ("This " ++ resource.readableName ++
        " is being updated. Poll for provisioningState=Succeeded, Failed, or Cancelled for completion."))
        (VFields.cons "schema" (.obj (.cons "$ref"
          (.str ("#/definitions/" ++ capitalize last.1 ++ "Resource")) .nil)) .nil), ?_, ?_⟩
    · simp [handlerResponses, vlookup, VFields.ofList]
    · simp [vlookup]
  · refine ⟨VFields.cons "description" (.str ("This " ++ resource.readableName ++
        " is being created. Poll for provisioningState=Succeeded, Failed, or Cancelled for completion."))
        (VFields.cons "schema" (.obj (.cons "$ref"
          (.str ("#/definitions/" ++ capitalize last.1 ++ "Resource")) .nil)) .nil), ?_, ?_⟩
    · simp [handlerResponses, vlookup, VFields.ofList]
    · simp [vlookup]

/-- Witness for C7: the hypotheses hold at the example resource, whose Put
handler therefore serializes successfully. -/
theorem serializeHandler_put_spec_witness :
    exceptIsOk (serializeHandler exampleResource .put) = true := by
  obtain ⟨target, htarget, -⟩ :=
    serializeHandler_put_spec exampleResource
      ("genericResources", ⟨"resourceName", none, none, none⟩)
      "#/definitions/GenericResourcesResource" (by decide) (by decide)
  simp [htarget, exceptIsOk]

/-! ### C8 -/

theorem rlookup_assign_self {T : Type} (r : Rcd T) (k : String) (v : T) :
    rlookup (assign r k v) k = some v := by
  induction r with
  | nil => simp [assign, rlookup]
  | cons hd rest ih =>
    obtain ⟨k0, v0⟩ := hd
    by_cases h : k0 = k
    · simp [assign, h, rlookup]
    · simp [assign, h, rlookup, ih]

theorem defsLoop_flat (tv : TargetVersion) :
    ∀ (np : Props) (accP : List (String × Property)) (accD : Rcd Definition),
    propsNonObject np = true →
    defsLoop tv np accP accD = .ok (accP ++ propsFilter tv np, accD)
  | .nil, accP, accD, _ => by simp [defsLoop, propsFilter]
  | .cons name (.mk pd pt pm pr ppv pga pdep) rest, accP, accD, hno => by
    have ih := defsLoop_flat tv rest
    have hno1 : pt.isObjectKind = false := by
      have := hno
      simp only [propsNonObject, Property.type, Bool.and_eq_true, Bool.not_eq_true'] at this
      exact this.1
    have hno2 : propsNonObject rest = true := by
      have := hno
      simp only [propsNonObject, Property.type, Bool.and_eq_true, Bool.not_eq_true'] at this
      exact this.2
    cases pt
    case object dn dd dp => simp [FieldType.isObjectKind] at hno1
    all_goals (
      by_cases hv : inVersion (Versioned.mk ppv pga pdep) tv <;>
        simp [defsLoop, Property.toVersioned, Property.previewVersion, Property.gaVersion,
          Property.deprecatedOn, hv, propsFilter, ih _ _ hno2, List.append_assoc])

/-- The extraction of a flat (object-free) object field type: a single
definition holding the visible properties. -/
theorem definitionsFromFieldType_flat (tv : TargetVersion) (nn nd : String) (np : Props)
    (hflat : propsNonObject np = true) :
    definitionsFromFieldType (.object nn nd np) tv = .ok [(nn, ⟨nd, propsFilter tv np⟩)] := by
  simp [definitionsFromFieldType, defsLoop_flat tv np [] [] hflat, assign]

/-- C8: `definitionsFromFieldType` returns the empty dictionary on every
non-object input; on a successful object input the result contains the root
definition under the root's own definitionName; and when an object's two
visible properties carry the same nested object type, the result contains
exactly one definition for the nested type, both emitted properties holding
identical XRef targets. -/
theorem definitionsFromFieldType_spec :
    (∀ (ft : FieldType) (tv : TargetVersion), ft.isObjectKind = false →
      definitionsFromFieldType ft tv = .ok []) ∧
    (∀ (n d : String) (ps : Props) (tv : TargetVersion) (defs : Rcd Definition),
      definitionsFromFieldType (.object n d ps) tv = .ok defs →
      ∃ emitted, rlookup defs n = some ⟨d, emitted⟩) ∧
    (∀ (tv : TargetVersion) (n d k1 k2 : String) (p1 p2 : Property) (nn nd : String) (np : Props),
      inVersion p1.toVersioned tv = true →
      inVersion p2.toVersioned tv = true →
      p1.type = .object nn nd np →
      p2.type = .object nn nd np →
      propsNonObject np = true →
      n ≠ nn →
      definitionsFromFieldType (.object n d (.cons k1 p1 (.cons k2 p2 .nil))) tv =
        .ok [(nn, ⟨nd, propsFilter tv np⟩),
             (n, ⟨d, [(k1, xrefProp p1 nn), (k2, xrefProp p2 nn)]⟩)] ∧
      (keys [(nn, (⟨nd, propsFilter tv np⟩ : Definition)),
             (n, ⟨d, [(k1, xrefProp p1 nn), (k2, xrefProp p2 nn)]⟩)]).count nn = 1) := by
  refine ⟨?_, ?_, ?_⟩
  · intro ft tv hk
    cases ft <;> simp [definitionsFromFieldType] <;> simp [FieldType.isObjectKind] at hk
  · intro n d ps tv defs h
    cases hdl : defsLoop tv ps [] [] with
    | error e =>
      rw [definitionsFromFieldType, hdl] at h
      cases h
    | ok pr =>
      obtain ⟨emitted, defs0⟩ := pr
      rw [definitionsFromFieldType, hdl] at h
      simp only [Except.ok.injEq] at h
      subst h
      exact ⟨emitted, rlookup_assign_self defs0 n ⟨d, emitted⟩⟩
  · intro tv n d k1 k2 p1 p2 nn nd np hv1 hv2 ht1 ht2 hflat hne
    have hdl : defsLoop tv np [] [] = .ok (propsFilter tv np, []) :=
      defsLoop_flat tv np [] [] hflat
    obtain ⟨pd1, pt1, pm1, pr1, ppv1, pga1, pdep1⟩ := p1
    obtain ⟨pd2, pt2, pm2, pr2, ppv2, pga2, pdep2⟩ := p2
    simp only [Property.type] at ht1 ht2
    subst ht1
    subst ht2
    constructor
    · simp only [definitionsFromFieldType, defsLoop, hv1, hv2, hdl, if_true, xrefProp,
        Property.description, Property.previewVersion, Property.gaVersion,
        concatRecords, concatRecordsAux, insertIdem, rlookup, assign]
      simp [assign, hne, rlookup, Ne.symm hne]
    · simp [keys, List.count_cons, Ne.symm hne]

/-- Witness for C8 at the repository's own test scenario: `Definition1` with
two properties `boris` and `hortense`, both of the nested object type
`Definition2`, extracts successfully. -/
theorem definitionsFromFieldType_spec_witness :
    exceptIsOk (definitionsFromFieldType
      (.object "Definition1" "Hello"
        (.cons "boris" (.mk "Boris property"
            (.object "Definition2" "Goodbye"
              (.cons "meep" (.mk "Meep" .string none none none (some ⟨2021, 2, 10⟩) none) .nil))
            none none none (some ⟨2021, 2, 10⟩) none)
          (.cons "hortense" (.mk "Hortense property"
            (.object "Definition2" "Goodbye"
              (.cons "meep" (.mk "Meep" .string none none none (some ⟨2021, 2, 10⟩) none) .nil))
            none none none (some ⟨2021, 2, 10⟩) none)
          .nil)))
      (⟨2021, 2, 11⟩, .ga)) = true := by
  have h := definitionsFromFieldType_spec.2.2 (⟨2021, 2, 11⟩, .ga) "Definition1" "Hello"
    "boris" "hortense"
    (.mk "Boris property"
      (.object "Definition2" "Goodbye"
        (.cons "meep" (.mk "Meep" .string none none none (some ⟨2021, 2, 10⟩) none) .nil))
      none none none (some ⟨2021, 2, 10⟩) none)
    (.mk "Hortense property"
      (.object "Definition2" "Goodbye"
        (.cons "meep" (.mk "Meep" .string none none none (some ⟨2021, 2, 10⟩) none) .nil))
      none none none (some ⟨2021, 2, 10⟩) none)
    "Definition2" "Goodbye"
    (.cons "meep" (.mk "Meep" .string none none none (some ⟨2021, 2, 10⟩) none) .nil)
    (by decide) (by decide) (by decide) (by decide) (by decide) (by decide)
  simp [h.1, exceptIsOk]

/-! ### C9 -/

/-- C9: compiling a Tracked resource mutates shared state.  The source
aliases the module-level `commonTrackedProperties` table
(`properties = commonTrackedProperties`) and then executes
`properties["properties"] = ...` on the alias, so after one call on the
example Tracked resource the shared table has gained a `properties` entry:
the table after the call differs from the module constant. -/
theorem definitionsFromResource_mutates_shared_table :
    hasKey commonTrackedProperties "properties" = false ∧
    (definitionsFromResource exampleResource (⟨2021, 4, 1⟩, .preview)
        commonTrackedProperties).map Prod.snd =
      .ok (commonTrackedProperties ++
        [("properties", .mk "Properties of a generic resource."
            (.xref "GenericResourcesProperties") none none none none none)]) ∧
    commonTrackedProperties ++
        [("properties", Property.mk "Properties of a generic resource."
            (.xref "GenericResourcesProperties") none none none none none)] ≠
      commonTrackedProperties := by
  decide

end ArmSpec
